import Mathlib

/-!
Shallow embedding of the Urho3D virtual-filesystem facade
(`Source/Urho3D/IO/FileSystem.cpp`).  Strings are modelled as `List Char`;
the PhysFS archive backend, which is a third-party library linked by the
facade, is modelled abstractly as a record of oracles whose contracts come
from the specification's backend-adapter section.  The embedding targets the
non-Windows build: `GetNativePath` is the identity there and the Windows
drive-letter branch of `IsAbsolutePath` is compiled out.
-/

/-- Characters removed by `String::Trimmed` (space and horizontal tab,
character 9).  Modelled from the spec: the container-library routine
`String::Trimmed` is outside `src/`; the spec calls it "trim whitespace". -/
def isTrimChar (c : Char) : Bool := c = ' ' || c = '\t'

/-- `String::Trimmed`: drop trim characters from the front, then from the
back.  Modelled from the spec: the routine lives in the container library,
not under `src/`. -/
def trimmed (s : List Char) : List Char :=
  ((s.dropWhile isTrimChar).reverse.dropWhile isTrimChar).reverse

/-- The character map performed by `Replace('\\', '/')`. -/
def toForward (c : Char) : Char := if c = '\\' then '/' else c

/-- `GetInternalPath` (FileSystem.cpp:901): replace `\` with `/`. -/
def getInternalPath (pathName : List Char) : List Char := pathName.map toForward

/-- `GetNativePath` (FileSystem.cpp:906): identity on non-Windows builds. -/
def getNativePath (pathName : List Char) : List Char := pathName

/-- `AddTrailingSlash` (FileSystem.cpp:874): trim, normalize backslashes,
append a final `/` unless the string is empty or already ends in `/`. -/
def addTrailingSlash (pathName : List Char) : List Char :=
  match (getInternalPath (trimmed pathName)).getLast? with
  | none => getInternalPath (trimmed pathName)
  | some c =>
    if c = '/' then getInternalPath (trimmed pathName)
    else getInternalPath (trimmed pathName) ++ ['/']

/-- `RemoveTrailingSlash` (FileSystem.cpp:883): trim, normalize backslashes,
strip a single final `/` when present. -/
def removeTrailingSlash (pathName : List Char) : List Char :=
  match (getInternalPath (trimmed pathName)).getLast? with
  | none => getInternalPath (trimmed pathName)
  | some c =>
    if c = '/' then (getInternalPath (trimmed pathName)).dropLast
    else getInternalPath (trimmed pathName)

/-- `String::FindLast(char)`: index of the last occurrence, `none` for the
`NPOS` result. -/
def findLastIdx : List Char → Char → Option Nat
  | [], _ => none
  | a :: s, c =>
    match findLastIdx s c with
    | some i => some (i + 1)
    | none => if a = c then some 0 else none

/-- `GetParentPath` (FileSystem.cpp:892): position of the last `/` of the
slash-stripped path; the original path up to and including that position,
or empty when there is no slash. -/
def getParentPath (path : List Char) : List Char :=
  match findLastIdx (removeTrailingSlash path) '/' with
  | some pos => path.take (pos + 1)
  | none => []

/-- `SplitPath` (FileSystem.cpp:809): normalize to internal form, strip an
extension when the last `.` lies after the last `/`, then split the rest at
the last `/` into directory part (slash included) and file name. -/
def splitPath (fullPath : List Char) (lowercaseExtension : Bool) :
    List Char × List Char × List Char :=
  let fullPathCopy := getInternalPath fullPath
  let extCut : Option Nat :=
    match findLastIdx fullPathCopy '.', findLastIdx fullPathCopy '/' with
    | some extPos, none => some extPos
    | some extPos, some pathPos => if extPos > pathPos then some extPos else none
    | none, _ => none
  let stripped :=
    match extCut with
    | some extPos =>
        (fullPathCopy.take extPos,
          if lowercaseExtension then (fullPathCopy.drop extPos).map Char.toLower
          else fullPathCopy.drop extPos)
    | none => (fullPathCopy, [])
  match findLastIdx stripped.1 '/' with
  | some pathPos => (stripped.1.take (pathPos + 1), stripped.1.drop (pathPos + 1), stripped.2)
  | none => ([], stripped.1, stripped.2)

/-- `GetPath` (FileSystem.cpp:839): the directory component of `SplitPath`
(the extension-lowercasing flag does not affect this component). -/
def getPath (fullPath : List Char) : List Char := (splitPath fullPath false).1

/-- `IsAbsolutePath` (FileSystem.cpp:342), non-Windows build: empty paths are
not absolute; otherwise the internal form must begin with `/`. -/
def isAbsolutePath (pathName : List Char) : Bool :=
  match (getInternalPath pathName).head? with
  | some c => c = '/'
  | none => false

/-- `String::Contains`: substring occurrence.  Modelled from the spec: the
container-library routine is outside `src/`; it reports whether the needle
occurs contiguously in the haystack. -/
def containsSub (s sub : List Char) : Bool := decide (sub <:+: s)

/-- `FileSystem::CheckAccess` (FileSystem.cpp:611): add a trailing slash;
allow everything when no allowed directories are registered; refuse any path
containing `..`; otherwise allow exactly when some registered prefix is a
leading substring. -/
def checkAccess (allowedPaths : List (List Char)) (pathName : List Char) : Bool :=
  let fixedPath := addTrailingSlash pathName
  if allowedPaths.isEmpty then true
  else if containsSub fixedPath ['.', '.'] then false
  else allowedPaths.any (fun allowed => allowed.isPrefixOf fixedPath)

/-- `FileSystem::RegisterPath` (FileSystem.cpp:718): ignore empty inputs,
otherwise insert the slash-terminated path into the allowed set. -/
def registerPath (allowedPaths : List (List Char)) (pathName : List Char) :
    List (List Char) :=
  if pathName.isEmpty then allowedPaths
  else addTrailingSlash pathName :: allowedPaths

/-- PhysFS file types relevant to the facade (`PHYSFS_FILETYPE_*`). -/
inductive PhysfsFileType where
  | regular
  | directory
  | symlink
  | other
deriving DecidableEq

/-- Modelled from the spec: the backend stat record `{filetype, mod_time}`
(sizes are unused by the claims). -/
structure PhysfsStat where
  filetype : PhysfsFileType
  modtime : Nat

/-- Modelled from the spec: the archive-backend adapter contract.  Each field
is one backend entry point the facade calls; `deleteResult` is the raw
`PHYSFS_delete` return value (nonzero on success, `0` on failure) and
`baseDir` is `PHYSFS_getBaseDir`. -/
structure PhysfsBackend where
  stat : List Char → Option PhysfsStat
  mkdirOk : List Char → Bool
  deleteResult : List Char → Int
  getRealDir : List Char → List Char
  baseDir : List Char

/-- `FileSystem::DirExists` (FileSystem.cpp:677): access check, then stat of
the native slash-stripped path must report a directory or a symlink. -/
def dirExists (be : PhysfsBackend) (allowedPaths : List (List Char))
    (pathName : List Char) : Bool :=
  if checkAccess allowedPaths pathName then
    match be.stat (getNativePath (removeTrailingSlash pathName)) with
    | some st => st.filetype = .directory || st.filetype = .symlink
    | none => false
  else false

/-- `FileSystem::FileExists` (FileSystem.cpp:650): access check on the parent
directory, then stat must report a regular file or a symlink. -/
def fileExists (be : PhysfsBackend) (allowedPaths : List (List Char))
    (fileName : List Char) : Bool :=
  if checkAccess allowedPaths (getPath fileName) then
    match be.stat fileName with
    | some st => st.filetype = .regular || st.filetype = .symlink
    | none => false
  else false

/-- `FileSystem::Delete` (FileSystem.cpp:591): access check on the parent
directory; then the facade returns `true` when `PHYSFS_delete` returns `0`
(backend failure) and `false` otherwise. -/
def deleteFile (be : PhysfsBackend) (allowedPaths : List (List Char))
    (fileName : List Char) : Bool :=
  if checkAccess allowedPaths (getPath fileName) then
    if be.deleteResult fileName = 0 then true else false
  else false

/-- `FileSystem::GetCurrentDir` (FileSystem.cpp:606): the backend base
directory. -/
def getCurrentDir (be : PhysfsBackend) : List Char := be.baseDir

/-- `FileSystem::GetProgramDir` (FileSystem.cpp:705): the backend base
directory. -/
def getProgramDir (be : PhysfsBackend) : List Char := be.baseDir

/-- `FileSystem::GetLastModifiedTime` (FileSystem.cpp:634): `0` for an empty
name or an access denial; otherwise the stat modtime truncated to the
32-bit unsigned return type, or `0` when the stat fails. -/
def getLastModifiedTime (be : PhysfsBackend) (allowedPaths : List (List Char))
    (fileName : List Char) : Nat :=
  if fileName.isEmpty || !(checkAccess allowedPaths fileName) then 0
  else
    match be.stat fileName with
    | some st => st.modtime % 2 ^ 32
    | none => 0

/-- `FileSystem::SystemOpen` (FileSystem.cpp:535): logs an error and returns
`false` for every input. -/
def systemOpen (_fileName _mode : List Char) : Bool := false

/-- The `append` integer `FileSystem::MountArchive` passes to `PHYSFS_mount`
(FileSystem.cpp:378): `1` when `priority` is set, `0` otherwise. -/
def mountAppendArg (priority : Bool) : Nat := if priority then 1 else 0

/-- Modelled from the spec: the backend `mount` contract on the ordered
search path — `append` nonzero adds at the end (lowest priority), zero at
the front (highest priority). -/
def backendMount (searchPath : List (List Char)) (realPath : List Char)
    (append : Nat) : List (List Char) :=
  if append ≠ 0 then searchPath ++ [realPath] else realPath :: searchPath

/-- The real path `FileSystem::MountArchive` hands to the backend
(FileSystem.cpp:369): prepend the backend real directory when the file name
is not absolute, then take the native slash-stripped form. -/
def mountArchivePath (be : PhysfsBackend) (fileName : List Char) : List Char :=
  let pathName :=
    if isAbsolutePath fileName then fileName
    else be.getRealDir fileName ++ '/' :: fileName
  getNativePath (removeTrailingSlash pathName)

/-- `FileSystem::MountArchive` (FileSystem.cpp:360) acting on the backend
search path: mount the computed real path with the computed append flag. -/
def mountArchive (be : PhysfsBackend) (searchPath : List (List Char))
    (fileName _mountPoint : List Char) (priority : Bool) : List (List Char) :=
  backendMount searchPath (mountArchivePath be fileName) (mountAppendArg priority)

/-- `M_MAX_UNSIGNED`: the largest 32-bit unsigned value. -/
def M_MAX_UNSIGNED : Nat := 2 ^ 32 - 1

/-- The facade state touched by the asynchronous-execution entry points:
`nextAsyncExecID_` and the queue of stored request ids. -/
structure FileSystemAsyncState where
  nextAsyncExecID : Nat
  asyncExecQueue : List Nat

/-- `AsyncExecRequest::AsyncExecRequest` (FileSystem.cpp:202) acting on the
id passed to it by reference: the stored request id is the incoming value,
and the referenced counter becomes the incremented value (32-bit wrap), reset
to `1` when the increment lands exactly on `M_MAX_UNSIGNED`.  Returns
`(stored id, new value of the referenced counter)`. -/
def asyncExecRequestCtor (requestID : Nat) : Nat × Nat :=
  let stored := requestID
  let incremented := (requestID + 1) % 2 ^ 32
  (stored, if incremented = M_MAX_UNSIGNED then 1 else incremented)

/-- `AsyncSystemCommand::AsyncSystemCommand` (FileSystem.cpp:234) declares its
`requestID` parameter by value, so the base-class increment acts on the local
copy only; just the stored id survives. -/
def asyncSystemCommandCtor (requestID : Nat) : Nat :=
  (asyncExecRequestCtor requestID).1

/-- `AsyncSystemRun::AsyncSystemRun` (FileSystem.cpp:258): same by-value
`requestID` parameter as `AsyncSystemCommand`. -/
def asyncSystemRunCtor (requestID : Nat) : Nat :=
  (asyncExecRequestCtor requestID).1

/-- `FileSystem::SystemCommandAsync` (FileSystem.cpp:493), threading enabled:
with a non-empty allowed-paths set return `M_MAX_UNSIGNED` and leave the
state alone; otherwise read `nextAsyncExecID_`, construct the request (the
constructor receives `nextAsyncExecID_` by value, so the member itself is
not incremented), enqueue the stored id and return the value read. -/
def systemCommandAsync (allowedPaths : List (List Char))
    (st : FileSystemAsyncState) : Nat × FileSystemAsyncState :=
  if allowedPaths.isEmpty then
    let requestID := st.nextAsyncExecID
    let storedID := asyncSystemCommandCtor st.nextAsyncExecID
    (requestID, { st with asyncExecQueue := st.asyncExecQueue ++ [storedID] })
  else
    (M_MAX_UNSIGNED, st)

/-- `FileSystem::SystemRunAsync` (FileSystem.cpp:514), threading enabled:
identical id handling to `systemCommandAsync`. -/
def systemRunAsync (allowedPaths : List (List Char))
    (st : FileSystemAsyncState) : Nat × FileSystemAsyncState :=
  if allowedPaths.isEmpty then
    let requestID := st.nextAsyncExecID
    let storedID := asyncSystemRunCtor st.nextAsyncExecID
    (requestID, { st with asyncExecQueue := st.asyncExecQueue ++ [storedID] })
  else
    (M_MAX_UNSIGNED, st)

/-- `SCAN_FILES` flag bit. -/
def SCAN_FILES : Nat := 1

/-- `SCAN_DIRS` flag bit. -/
def SCAN_DIRS : Nat := 2

/-- `SCAN_HIDDEN` flag bit. -/
def SCAN_HIDDEN : Nat := 4

/-- Modelled from the spec: a backend directory tree as enumerated by
`PHYSFS_enumerateFiles`/`PHYSFS_stat` — each entry is a regular file or a
directory with children, listed in enumeration order. -/
inductive FsEntry where
  | file (name : List Char)
  | dir (name : List Char) (children : List FsEntry)

/-- Name of a tree entry. -/
def fsEntryName : FsEntry → List Char
  | .file n => n
  | .dir n _ => n

/-- `String::StartsWith(".")` on an enumerated name. -/
def startsWithDot (name : List Char) : Bool :=
  match name with
  | c :: _ => c = '.'
  | [] => false

/-- The filter-extension computation of `FileSystem::ScanDirInternal`
(FileSystem.cpp:743): the substring of the filter from its last `.`, cleared
when it contains `*` or when the filter has no `.` at all. -/
def scanFilterExt (filter : List Char) : List Char :=
  let filterExtension :=
    match findLastIdx filter '.' with
    | some pos => filter.drop pos
    | none => []
  if containsSub filterExtension ['*'] then [] else filterExtension

mutual
/-- One iteration of the enumeration loop of `FileSystem::ScanDirInternal`
(FileSystem.cpp:749): skip names starting with `.` unless `SCAN_HIDDEN` is
set; emit directories under `SCAN_DIRS` and descend under `recursive`; emit
regular files under `SCAN_FILES` when the filter extension is empty or a
suffix of the name. -/
def scanEntry (deltaPath filterExtension : List Char) (flags : Nat)
    (recursive : Bool) : FsEntry → List (List Char)
  | .file name =>
    if startsWithDot name && !(flags &&& SCAN_HIDDEN != 0) then []
    else if (flags &&& SCAN_FILES != 0) &&
        (filterExtension.isEmpty || filterExtension.isSuffixOf name) then
      [deltaPath ++ name]
    else []
  | .dir name children =>
    if startsWithDot name && !(flags &&& SCAN_HIDDEN != 0) then []
    else
      (if flags &&& SCAN_DIRS != 0 then [deltaPath ++ name] else []) ++
      (if recursive then
        scanEntries (deltaPath ++ name ++ ['/']) filterExtension flags recursive children
      else [])

/-- The enumeration loop of `FileSystem::ScanDirInternal` over a listing. -/
def scanEntries (deltaPath filterExtension : List Char) (flags : Nat)
    (recursive : Bool) : List FsEntry → List (List Char)
  | [] => []
  | e :: rest =>
    scanEntry deltaPath filterExtension flags recursive e ++
    scanEntries deltaPath filterExtension flags recursive rest
end

mutual
/-- The `ScanDirInternal` loop body with the hidden-name skip removed: the
behaviour prescribed for entries once `SCAN_HIDDEN` is set. -/
def scanEntryAll (deltaPath filterExtension : List Char) (flags : Nat)
    (recursive : Bool) : FsEntry → List (List Char)
  | .file name =>
    if (flags &&& SCAN_FILES != 0) &&
        (filterExtension.isEmpty || filterExtension.isSuffixOf name) then
      [deltaPath ++ name]
    else []
  | .dir name children =>
    (if flags &&& SCAN_DIRS != 0 then [deltaPath ++ name] else []) ++
    (if recursive then
      scanEntriesAll (deltaPath ++ name ++ ['/']) filterExtension flags recursive children
    else [])

/-- The skip-free `ScanDirInternal` loop over a listing. -/
def scanEntriesAll (deltaPath filterExtension : List Char) (flags : Nat)
    (recursive : Bool) : List FsEntry → List (List Char)
  | [] => []
  | e :: rest =>
    scanEntryAll deltaPath filterExtension flags recursive e ++
    scanEntriesAll deltaPath filterExtension flags recursive rest
end

mutual
/-- Remove every entry whose name starts with `.` from a tree, recursively. -/
def pruneEntry : FsEntry → FsEntry
  | .file n => .file n
  | .dir n children => .dir n (pruneHidden children)

/-- Remove hidden entries from a listing, recursively. -/
def pruneHidden : List FsEntry → List FsEntry
  | [] => []
  | e :: rest =>
    if startsWithDot (fsEntryName e) then pruneHidden rest
    else pruneEntry e :: pruneHidden rest
end

mutual
/-- Every name in the tree is free of `/` (true of any real directory
enumeration, where entries are single path components). -/
def slashFreeEntry : FsEntry → Bool
  | .file n => decide (('/' : Char) ∉ n)
  | .dir n children => decide (('/' : Char) ∉ n) && slashFreeEntries children

/-- `slashFreeEntry` over a listing. -/
def slashFreeEntries : List FsEntry → Bool
  | [] => true
  | e :: rest => slashFreeEntry e && slashFreeEntries rest
end

/-- `FileSystem::ScanDir` (FileSystem.cpp:694) on a backend tree: clear the
results, and scan only when the access check allows the start path.  The
start path itself contributes the empty relative prefix. -/
def scanDir (tree : List FsEntry) (allowedPaths : List (List Char))
    (pathName filter : List Char) (flags : Nat) (recursive : Bool) :
    List (List Char) :=
  if checkAccess allowedPaths pathName then
    scanEntries [] (scanFilterExt filter) flags recursive tree
  else []

/-! Helper lemmas about the path utilities. -/

theorem findLastIdx_lt_length {s : List Char} {c : Char} {i : Nat}
    (h : findLastIdx s c = some i) : i < s.length := by
  induction s generalizing i with
  | nil => simp [findLastIdx] at h
  | cons a t ih =>
    rw [findLastIdx] at h
    cases ht : findLastIdx t c with
    | some j =>
      rw [ht] at h
      cases h
      exact Nat.succ_lt_succ (ih ht)
    | none =>
      rw [ht] at h
      by_cases hac : a = c
      · simp [hac] at h
        cases h
        exact Nat.succ_le_succ (Nat.zero_le _)
      · simp [hac] at h

theorem findLastIdx_at_end {s : List Char} {c : Char} {i : Nat}
    (h : findLastIdx s c = some i) (hlen : i + 1 = s.length) :
    s.getLast? = some c := by
  induction s generalizing i with
  | nil => simp [findLastIdx] at h
  | cons a t ih =>
    rw [findLastIdx] at h
    cases ht : findLastIdx t c with
    | some j =>
      rw [ht] at h
      cases h
      simp only [List.length_cons] at hlen
      have htlen : j + 1 = t.length := by omega
      have htail := ih ht htlen
      have hne : t ≠ [] := by
        intro hnil
        rw [hnil] at htlen
        exact Nat.succ_ne_zero j htlen
      cases t with
      | nil => exact absurd rfl hne
      | cons b u => simpa [List.getLast?_cons_cons] using htail
    | none =>
      rw [ht] at h
      by_cases hac : a = c
      · simp [hac] at h
        cases h
        simp only [List.length_cons] at hlen
        have : t.length = 0 := by omega
        have htnil : t = [] := List.length_eq_zero.mp this
        subst htnil
        simp [hac]
      · simp [hac] at h

theorem trimmed_length_le (s : List Char) : (trimmed s).length ≤ s.length := by
  unfold trimmed
  have h1 : (s.dropWhile isTrimChar).length ≤ s.length :=
    ( List.dropWhile_suffix isTrimChar).sublist.length_le
  have h2 : ((s.dropWhile isTrimChar).reverse.dropWhile isTrimChar).length ≤
      (s.dropWhile isTrimChar).reverse.length :=
    ( List.dropWhile_suffix isTrimChar).sublist.length_le
  simpa using le_trans (by simpa using h2) h1

theorem getInternalPath_length (s : List Char) :
    (getInternalPath s).length = s.length := by
  simp [getInternalPath]

theorem removeTrailingSlash_length_le (p : List Char) :
    (removeTrailingSlash p).length ≤ p.length := by
  have hq : (getInternalPath (trimmed p)).length ≤ p.length := by
    rw [getInternalPath_length]
    exact trimmed_length_le p
  unfold removeTrailingSlash
  cases h : (getInternalPath (trimmed p)).getLast? with
  | none => exact hq
  | some c =>
    show (if c = '/' then (getInternalPath (trimmed p)).dropLast
      else getInternalPath (trimmed p)).length ≤ p.length
    by_cases hc : c = '/'
    · rw [if_pos hc]
      exact le_trans (List.dropLast_sublist _).length_le hq
    · rw [if_neg hc]
      exact hq

theorem removeTrailingSlash_slash_end {p : List Char}
    (h : (removeTrailingSlash p).getLast? = some '/') :
    (removeTrailingSlash p).length < p.length := by
  unfold removeTrailingSlash at h ⊢
  cases hq : (getInternalPath (trimmed p)).getLast? with
  | none =>
    rw [hq] at h
    simp only at h
    rw [List.getLast?_eq_none_iff.mp hq] at h
    simp at h
  | some c =>
    rw [hq] at h
    show (if c = '/' then (getInternalPath (trimmed p)).dropLast
      else getInternalPath (trimmed p)).length < p.length
    replace h : (if c = '/' then (getInternalPath (trimmed p)).dropLast
      else getInternalPath (trimmed p)).getLast? = some '/' := h
    by_cases hc : c = '/'
    · rw [if_pos hc]
      have hne : getInternalPath (trimmed p) ≠ [] := by
        intro hnil
        rw [hnil] at hq
        simp at hq
      have hpos : 0 < (getInternalPath (trimmed p)).length :=
        List.length_pos.mpr hne
      have hlen : (getInternalPath (trimmed p)).length ≤ p.length := by
        rw [getInternalPath_length]
        exact trimmed_length_le p
      rw [List.length_dropLast]
      omega
    · rw [if_neg hc] at h
      rw [hq] at h
      cases h
      exact absurd rfl hc

theorem getParentPath_shorter (p : List Char) :
    getParentPath p = [] ∨ (getParentPath p).length < p.length := by
  unfold getParentPath
  cases hf : findLastIdx (removeTrailingSlash p) '/' with
  | none => exact Or.inl rfl
  | some i =>
    right
    have hi : i < (removeTrailingSlash p).length := findLastIdx_lt_length hf
    have hrle : (removeTrailingSlash p).length ≤ p.length :=
      removeTrailingSlash_length_le p
    have hlt : i + 1 < p.length := by
      rcases Nat.lt_or_ge (i + 1) (removeTrailingSlash p).length with hcase | hcase
      · omega
      · have heq : i + 1 = (removeTrailingSlash p).length := by omega
        have hend := findLastIdx_at_end hf heq
        have := removeTrailingSlash_slash_end hend
        omega
    rw [List.length_take]
    omega

/-- `FileSystem::CreateDir` (FileSystem.cpp:428): access check; recursively
create the parent when its path is longer than one character and it does not
exist yet; then ask the backend to create the directory itself.  The
recursion is on `getParentPath`, which strictly shortens the path whenever it
is non-empty (`getParentPath_shorter`). -/
def createDir (be : PhysfsBackend) (allowedPaths : List (List Char))
    (pathName : List Char) : Bool :=
  if checkAccess allowedPaths pathName then
    if h : 1 < (getParentPath pathName).length ∧
        dirExists be allowedPaths (getParentPath pathName) = false then
      if createDir be allowedPaths (getParentPath pathName) then
        be.mkdirOk (getNativePath (removeTrailingSlash pathName))
      else false
    else be.mkdirOk (getNativePath (removeTrailingSlash pathName))
  else false
termination_by pathName.length
decreasing_by
  rcases getParentPath_shorter pathName with hnil | hlt
  · rw [hnil] at h
    simp at h
  · exact hlt

/-! Theorems for the claims. -/

/-- C5: `CreateDir` terminates on every input: `getParentPath` either yields
the empty path (on which the `length > 1` guard stops the recursion) or a
strictly shorter path, so the recursion in `createDir` is well-founded; and
once the parent exists the call reduces to the single backend `mkdir` on the
path itself. -/
theorem c5_createDir_terminates (be : PhysfsBackend)
    (allowedPaths : List (List Char)) (pathName : List Char) :
    (getParentPath pathName = [] ∨
      (getParentPath pathName).length < pathName.length)
    ∧ (checkAccess allowedPaths pathName = true →
       dirExists be allowedPaths (getParentPath pathName) = true →
       createDir be allowedPaths pathName =
         be.mkdirOk (getNativePath (removeTrailingSlash pathName))) := by
  refine ⟨getParentPath_shorter pathName, fun hacc hdir => ?_⟩
  rw [createDir]
  rw [hacc]
  simp only [if_true]
  have hguard : ¬(1 < (getParentPath pathName).length ∧
      dirExists be allowedPaths (getParentPath pathName) = false) := by
    rintro ⟨-, hfalse⟩
    rw [hdir] at hfalse
    cases hfalse
  rw [dif_neg hguard]

/-- A backend whose stat always reports a directory and whose operations all
succeed; used to instantiate theorems at concrete inputs. -/
def beAllDirs : PhysfsBackend where
  stat := fun _ => some ⟨PhysfsFileType.directory, 42⟩
  mkdirOk := fun _ => true
  deleteResult := fun _ => 1
  getRealDir := fun _ => ['/', 'r']
  baseDir := ['/', 'b', '/']

/-- C5 witness: at the concrete path `ab` with no registered allowed paths,
the access check passes, the (empty) parent exists, and `createDir` is the
single backend `mkdir`. -/
theorem c5_witness :
    checkAccess [] ['a', 'b'] = true
    ∧ dirExists beAllDirs [] (getParentPath ['a', 'b']) = true
    ∧ createDir beAllDirs [] ['a', 'b'] =
        beAllDirs.mkdirOk (getNativePath (removeTrailingSlash ['a', 'b'])) := by
  refine ⟨by decide, by decide, ?_⟩
  exact (c5_createDir_terminates beAllDirs [] ['a', 'b']).2 (by decide) (by decide)

/-- C1: the code of `Delete` inverts the backend result.  With an empty
allowed set (access always granted), a backend whose delete reports failure
(`PHYSFS_delete` returns `0`) makes `Delete` return `true`, and a backend
whose delete succeeds (returns nonzero) makes it return `false` — the
opposite of the specified mapping. -/
theorem c1_delete_inverted :
    deleteFile ⟨fun _ => none, fun _ => false, fun _ => 0, fun _ => [], []⟩
      [] ['x'] = true
    ∧ deleteFile beAllDirs [] ['x'] = false := by
  constructor
  · rfl
  · rfl

/-- C2: `SystemCommandAsync` never advances `nextAsyncExecID_`, because the
`AsyncSystemCommand` constructor receives the id by value and the base-class
increment acts on that copy: after any call with an empty allowed set the
stored counter is unchanged, and two consecutive calls return the same
request id — the ids are not pairwise distinct as claimed. -/
theorem c2_async_ids_repeat (st : FileSystemAsyncState) :
    (systemCommandAsync [] st).2.nextAsyncExecID = st.nextAsyncExecID
    ∧ (systemCommandAsync [] (systemCommandAsync [] st).2).1 =
        (systemCommandAsync [] st).1
    ∧ (systemRunAsync [] st).2.nextAsyncExecID = st.nextAsyncExecID := by
  refine ⟨rfl, rfl, rfl⟩

/-- C8: `GetCurrentDir` and `GetProgramDir` both return the backend base
directory, so they are extensionally equal. -/
theorem c8_current_eq_program (be : PhysfsBackend) :
    getCurrentDir be = getProgramDir be ∧ getCurrentDir be = be.baseDir :=
  ⟨rfl, rfl⟩

/-- C9: `MountArchive` passes `append = 1` to the backend mount exactly when
`priority` is true and `append = 0` when it is false, so a priority mount
lands at the end of the search path (lowest priority) and a non-priority
mount at the front (highest). -/
theorem c9_mount_append (be : PhysfsBackend) (searchPath : List (List Char))
    (fileName mountPoint : List Char) :
    mountAppendArg true = 1 ∧ mountAppendArg false = 0
    ∧ mountArchive be searchPath fileName mountPoint true =
        searchPath ++ [mountArchivePath be fileName]
    ∧ mountArchive be searchPath fileName mountPoint false =
        mountArchivePath be fileName :: searchPath := by
  refine ⟨rfl, rfl, ?_, ?_⟩
  · simp [mountArchive, backendMount, mountAppendArg]
  · simp [mountArchive, backendMount, mountAppendArg]

/-- C10: `SystemOpen` returns `false` for every input. -/
theorem c10_system_open_false (fileName mode : List Char) :
    systemOpen fileName mode = false := rfl

/-- C7: `GetLastModifiedTime` returns `0` for the empty name, for an access
denial, and for a failing backend stat; when the name is non-empty, access is
granted and the stat succeeds, it returns the stat modtime (whose value fits
the 32-bit unsigned return type). -/
theorem c7_last_modified (be : PhysfsBackend) (allowedPaths : List (List Char))
    (fileName : List Char) :
    (fileName = [] → getLastModifiedTime be allowedPaths fileName = 0)
    ∧ (checkAccess allowedPaths fileName = false →
        getLastModifiedTime be allowedPaths fileName = 0)
    ∧ (checkAccess allowedPaths fileName = true → be.stat fileName = none →
        getLastModifiedTime be allowedPaths fileName = 0)
    ∧ (∀ st : PhysfsStat, fileName ≠ [] →
        checkAccess allowedPaths fileName = true →
        be.stat fileName = some st → st.modtime < 2 ^ 32 →
        getLastModifiedTime be allowedPaths fileName = st.modtime) := by
  refine ⟨?_, ?_, ?_, ?_⟩
  · intro he
    subst he
    simp [getLastModifiedTime]
  · intro hacc
    simp [getLastModifiedTime, hacc]
  · intro hacc hstat
    simp [getLastModifiedTime, hacc, hstat]
  · intro st hne hacc hstat hsmall
    have hne2 : fileName.isEmpty = false := by
      cases fileName with
      | nil => exact absurd rfl hne
      | cons a t => rfl
    simp [getLastModifiedTime, hne2, hacc, hstat]
    have hpow : (2 : Nat) ^ 32 = 4294967296 := by norm_num
    omega

/-- C7 witness: a backend stat reporting modtime 42 on file `a` with no
access restrictions yields 42. -/
theorem c7_witness :
    (['a'] : List Char) ≠ []
    ∧ checkAccess [] ['a'] = true
    ∧ beAllDirs.stat ['a'] = some ⟨PhysfsFileType.directory, 42⟩
    ∧ (42 : Nat) < 2 ^ 32
    ∧ getLastModifiedTime beAllDirs [] ['a'] = 42 := by
  refine ⟨by decide, by decide, rfl, by norm_num, ?_⟩
  exact (c7_last_modified beAllDirs [] ['a']).2.2.2 ⟨PhysfsFileType.directory, 42⟩
    (by decide) (by decide) rfl (by norm_num)

/-! Occurrence of a substring is preserved by the normalizations of
`AddTrailingSlash`, as long as the substring neither starts nor ends with a
trim character. -/

theorem within_dropWhile (w : Char → Bool) {l : List Char} (hne : l ≠ [])
    (hh : ∀ c, l.head? = some c → w c = false) :
    ∀ {s : List Char}, l <:+: s → l <:+: s.dropWhile w := by
  intro s
  induction s with
  | nil =>
    intro h
    rw [ List.infix_nil] at h
    exact absurd h hne
  | cons a t ih =>
    intro h
    rw [ List.dropWhile_cons]
    cases hw : w a with
    | false =>
      rw [if_neg Bool.false_ne_true]
      exact h
    | true =>
      rw [if_pos rfl]
      rcases List.infix_cons_iff.mp h with hp | hi
      · cases l with
        | nil => exact absurd rfl hne
        | cons x l2 =>
          have hx := ( List.cons_prefix_cons.mp hp).1
          have hwx := hh x rfl
          rw [hx, hw] at hwx
          cases hwx
      · exact ih hi

theorem within_map (f : Char → Char) {l s : List Char} (h : l <:+: s) :
    l.map f <:+: s.map f := by
  obtain ⟨u, v, huv⟩ := h
  exact ⟨u.map f, v.map f, by subst huv; simp⟩

theorem within_append_last {l s : List Char} (x : Char) (h : l <:+: s) :
    l <:+: s ++ [x] :=
  h.trans ⟨[], [x], by simp⟩

theorem within_trimmed {l p : List Char} (hne : l ≠ [])
    (hh : ∀ c, l.head? = some c → isTrimChar c = false)
    (hl : ∀ c, l.getLast? = some c → isTrimChar c = false)
    (h : l <:+: p) : l <:+: trimmed p := by
  unfold trimmed
  have s1 : l <:+: p.dropWhile isTrimChar := within_dropWhile isTrimChar hne hh h
  have s2 : l.reverse <:+: (p.dropWhile isTrimChar).reverse :=
    List.reverse_infix.mpr s1
  have hne2 : l.reverse ≠ [] := by simpa using hne
  have hh2 : ∀ c, l.reverse.head? = some c → isTrimChar c = false := by
    intro c hc
    rw [List.head?_reverse] at hc
    exact hl c hc
  have s3 : l.reverse <:+: (p.dropWhile isTrimChar).reverse.dropWhile isTrimChar :=
    within_dropWhile isTrimChar hne2 hh2 s2
  have s4 : l.reverse <:+:
      ((p.dropWhile isTrimChar).reverse.dropWhile isTrimChar).reverse.reverse := by
    rw [List.reverse_reverse]
    exact s3
  exact List.reverse_infix.mp s4

theorem dotdot_within_addTrailingSlash {p : List Char}
    (h : ['.', '.'] <:+: p) : ['.', '.'] <:+: addTrailingSlash p := by
  have h1 : ['.', '.'] <:+: trimmed p := by
    refine within_trimmed (by decide) ?_ ?_ h
    · intro c hc
      injection hc with h2
      subst h2
      decide
    · intro c hc
      injection hc with h2
      subst h2
      decide
  have h2 : ['.', '.'] <:+: getInternalPath (trimmed p) := by
    have hm := within_map toForward h1
    have hmap : List.map toForward ['.', '.'] = ['.', '.'] := by decide
    rw [hmap] at hm
    exact hm
  unfold addTrailingSlash
  cases hq : (getInternalPath (trimmed p)).getLast? with
  | none => exact h2
  | some c =>
    show ['.', '.'] <:+: (if c = '/' then getInternalPath (trimmed p)
      else getInternalPath (trimmed p) ++ ['/'])
    by_cases hc : c = '/'
    · rw [if_pos hc]
      exact h2
    · rw [if_neg hc]
      exact within_append_last '/' h2

/-- C3: with a non-empty allowed-paths set, any path containing the substring
`..` is refused by `CheckAccess`: the normalizations never strip the `..`,
and the explicit `Contains("..")` test then returns `false`. -/
theorem c3_checkAccess_refuses_dotdot (allowedPaths : List (List Char))
    (p : List Char) (hne : allowedPaths ≠ []) (hdd : ['.', '.'] <:+: p) :
    checkAccess allowedPaths p = false := by
  have hemp : allowedPaths.isEmpty = false := by
    cases allowedPaths with
    | nil => exact absurd rfl hne
    | cons a t => rfl
  have hcontains : containsSub (addTrailingSlash p) ['.', '.'] = true :=
    decide_eq_true (dotdot_within_addTrailingSlash hdd)
  simp [checkAccess, hemp, hcontains]

/-- C3 witness: with allowed set `{/s/}`, the path `/s/../e` contains `..`
and is refused. -/
theorem c3_witness :
    ([['/', 's', '/']] : List (List Char)) ≠ []
    ∧ (['.', '.'] : List Char) <:+: ['/', 's', '/', '.', '.', '/', 'e']
    ∧ checkAccess [['/', 's', '/']] ['/', 's', '/', '.', '.', '/', 'e'] = false := by
  refine ⟨by decide, by decide, ?_⟩
  exact c3_checkAccess_refuses_dotdot _ _ (by decide) (by decide)

/-! Fixed-point lemmas for the trimming and slash normalizations, used for
the idempotence analysis of `RemoveTrailingSlash`. -/

theorem head_dropWhile_not (w : Char → Bool) :
    ∀ {l : List Char} {c : Char}, (l.dropWhile w).head? = some c → w c = false := by
  intro l
  induction l with
  | nil => intro c hc; cases hc
  | cons a t ih =>
    intro c hc
    rw [ List.dropWhile_cons] at hc
    by_cases hw : w a = true
    · rw [if_pos hw] at hc
      exact ih hc
    · rw [if_neg hw] at hc
      cases hc
      exact Bool.not_eq_true (w a) ▸ eq_false_of_ne_true hw

theorem getLast_of_endSeg {t Y : List Char} (h : t <:+ Y) (hne : t ≠ []) :
    t.getLast? = Y.getLast? := by
  obtain ⟨u, rfl⟩ := h
  rw [List.getLast?_append]
  cases ht : t.getLast? with
  | none => exact absurd (List.getLast?_eq_none_iff.mp ht) hne
  | some x => rfl

theorem trimmed_head_not {s : List Char} {c : Char}
    (h : (trimmed s).head? = some c) : isTrimChar c = false := by
  unfold trimmed at h
  rw [List.head?_reverse] at h
  have hne : (s.dropWhile isTrimChar).reverse.dropWhile isTrimChar ≠ [] := by
    intro hnil
    rw [hnil] at h
    cases h
  rw [getLast_of_endSeg ( List.dropWhile_suffix isTrimChar) hne] at h
  rw [List.getLast?_reverse] at h
  exact head_dropWhile_not isTrimChar h

theorem trimmed_getLast_not {s : List Char} {c : Char}
    (h : (trimmed s).getLast? = some c) : isTrimChar c = false := by
  unfold trimmed at h
  rw [List.getLast?_reverse] at h
  exact head_dropWhile_not isTrimChar h

theorem dropWhile_eq_self_of_head (w : Char → Bool) :
    ∀ {s : List Char}, (∀ c, s.head? = some c → w c = false) →
      s.dropWhile w = s := by
  intro s h
  cases s with
  | nil => rfl
  | cons a t =>
    rw [ List.dropWhile_cons]
    rw [if_neg]
    rw [h a rfl]
    exact Bool.false_ne_true

theorem trimmed_eq_self {s : List Char}
    (hh : ∀ c, s.head? = some c → isTrimChar c = false)
    (hl : ∀ c, s.getLast? = some c → isTrimChar c = false) :
    trimmed s = s := by
  unfold trimmed
  rw [dropWhile_eq_self_of_head isTrimChar hh]
  have hl2 : ∀ c, s.reverse.head? = some c → isTrimChar c = false := by
    intro c hc
    rw [List.head?_reverse] at hc
    exact hl c hc
  rw [dropWhile_eq_self_of_head isTrimChar hl2]
  exact List.reverse_reverse s

theorem nobs_getInternalPath (s : List Char) :
    ('\\' : Char) ∉ getInternalPath s := by
  intro hmem
  rw [getInternalPath] at hmem
  obtain ⟨c, -, hc⟩ := List.mem_map.mp hmem
  by_cases hcb : c = '\\'
  · rw [toForward, if_pos hcb] at hc
    cases hc
  · rw [toForward, if_neg hcb] at hc
    exact hcb hc

theorem getInternalPath_eq_self {s : List Char} (h : ('\\' : Char) ∉ s) :
    getInternalPath s = s := by
  induction s with
  | nil => rfl
  | cons a t ih =>
    have ha : a ≠ '\\' := by
      intro hab
      exact h (hab ▸ List.mem_cons_self a t)
    have ht : ('\\' : Char) ∉ t := fun hm => h (List.mem_cons_of_mem a hm)
    show toForward a :: getInternalPath t = a :: t
    rw [toForward, if_neg ha, ih ht]

theorem toForward_notTrim {c : Char} (h : isTrimChar c = false) :
    isTrimChar (toForward c) = false := by
  rw [toForward]
  by_cases hc : c = '\\'
  · rw [if_pos hc]
    rfl
  · rw [if_neg hc]
    exact h

theorem getLastQ_map (f : Char → Char) (l : List Char) :
    (l.map f).getLast? = Option.map f l.getLast? := by
  rw [← List.head?_reverse, ← List.map_reverse, List.head?_map, List.head?_reverse]

theorem internal_trimmed_head_not {p : List Char} {e : Char}
    (h : (getInternalPath (trimmed p)).head? = some e) : isTrimChar e = false := by
  rw [getInternalPath, List.head?_map] at h
  cases ht : (trimmed p).head? with
  | none => rw [ht] at h; cases h
  | some x =>
    rw [ht] at h
    cases h
    exact toForward_notTrim (trimmed_head_not ht)

theorem internal_trimmed_getLast_not {p : List Char} {e : Char}
    (h : (getInternalPath (trimmed p)).getLast? = some e) : isTrimChar e = false := by
  rw [getInternalPath, getLastQ_map] at h
  cases ht : (trimmed p).getLast? with
  | none => rw [ht] at h; cases h
  | some x =>
    rw [ht] at h
    cases h
    exact toForward_notTrim (trimmed_getLast_not ht)

theorem rts_eq_self {s : List Char}
    (hh : ∀ c, s.head? = some c → isTrimChar c = false)
    (hl : ∀ c, s.getLast? = some c → isTrimChar c = false)
    (hnb : ('\\' : Char) ∉ s) (hsl : s.getLast? ≠ some '/') :
    removeTrailingSlash s = s := by
  unfold removeTrailingSlash
  rw [trimmed_eq_self hh hl, getInternalPath_eq_self hnb]
  cases hq : s.getLast? with
  | none => rfl
  | some c =>
    show (if c = '/' then s.dropLast else s) = s
    rw [if_neg]
    intro hc
    rw [hc] at hq
    exact hsl hq

/-- The guard of the amended idempotence claim for `RemoveTrailingSlash`:
when the trimmed, slash-normalized form of the path ends in `/`, the
character before that final slash (if any) is neither another `/` nor a trim
character.  On paths violating this guard a second application strips
further. -/
def rtsSafe (p : List Char) : Bool :=
  match (getInternalPath (trimmed p)).getLast? with
  | some '/' =>
    match (getInternalPath (trimmed p)).dropLast.getLast? with
    | some c => (c != '/') && !(isTrimChar c)
    | none => true
  | _ => true

/-- C4 counterexample: `RemoveTrailingSlash` strips only one slash, so on
`//` it yields `/`, on which a second application yields the empty string —
the function is not idempotent as claimed. -/
theorem c4_counterexample :
    removeTrailingSlash (removeTrailingSlash ['/', '/']) ≠
      removeTrailingSlash ['/', '/'] := by decide

/-- C4 (amended): `RemoveTrailingSlash` is idempotent on every path whose
trimmed slash-normalized form does not end in a doubled slash or in a trim
character followed by a slash (`rtsSafe`). -/
theorem c4_removeTrailingSlash_idem (p : List Char) (hsafe : rtsSafe p = true) :
    removeTrailingSlash (removeTrailingSlash p) = removeTrailingSlash p := by
  cases hq : (getInternalPath (trimmed p)).getLast? with
  | none =>
    have hqnil : getInternalPath (trimmed p) = [] :=
      List.getLast?_eq_none_iff.mp hq
    have h1 : removeTrailingSlash p = [] := by
      unfold removeTrailingSlash
      rw [hq]
      exact hqnil
    rw [h1]
    decide
  | some c =>
    by_cases hc : c = '/'
    · subst hc
      have h1 : removeTrailingSlash p = (getInternalPath (trimmed p)).dropLast := by
        unfold removeTrailingSlash
        rw [hq]
        show (if '/' = '/' then (getInternalPath (trimmed p)).dropLast
          else getInternalPath (trimmed p)) = (getInternalPath (trimmed p)).dropLast
        rw [if_pos rfl]
      rw [h1]
      cases hr : (getInternalPath (trimmed p)).dropLast.getLast? with
      | none =>
        have hrnil : (getInternalPath (trimmed p)).dropLast = [] :=
          List.getLast?_eq_none_iff.mp hr
        rw [hrnil]
        decide
      | some d =>
        have hsafe2 : ((d != '/') && !(isTrimChar d)) = true := by
          unfold rtsSafe at hsafe
          rw [hq, hr] at hsafe
          exact hsafe
        rw [Bool.and_eq_true, bne_iff_ne, Bool.not_eq_true'] at hsafe2
        obtain ⟨hd1, hd2⟩ := hsafe2
        have hqne : getInternalPath (trimmed p) ≠ [] := by
          intro hnil
          rw [hnil] at hq
          cases hq
        have hrne : (getInternalPath (trimmed p)).dropLast ≠ [] := by
          intro hnil
          rw [hnil] at hr
          cases hr
        have hqdecomp : (getInternalPath (trimmed p)).dropLast ++
            [(getInternalPath (trimmed p)).getLast hqne] =
            getInternalPath (trimmed p) :=
          List.dropLast_concat_getLast hqne
        apply rts_eq_self
        · intro e he
          apply internal_trimmed_head_not (p := p)
          rw [← hqdecomp, List.head?_append_of_ne_nil _ hrne]
          exact he
        · intro e he
          rw [hr] at he
          cases he
          exact hd2
        · intro hmem
          exact nobs_getInternalPath (trimmed p)
            ((List.dropLast_sublist _).subset hmem)
        · rw [hr]
          intro hbad
          cases hbad
          exact hd1 rfl
    · have h1 : removeTrailingSlash p = getInternalPath (trimmed p) := by
        unfold removeTrailingSlash
        rw [hq]
        show (if c = '/' then (getInternalPath (trimmed p)).dropLast
          else getInternalPath (trimmed p)) = getInternalPath (trimmed p)
        rw [if_neg hc]
      rw [h1]
      apply rts_eq_self
      · intro e he
        exact internal_trimmed_head_not he
      · intro e he
        exact internal_trimmed_getLast_not he
      · exact nobs_getInternalPath (trimmed p)
      · rw [hq]
        intro hbad
        cases hbad
        exact hc rfl

/-- C4 witness: the path `a/` satisfies the guard and is a fixed point of a
second `RemoveTrailingSlash`. -/
theorem c4_witness :
    rtsSafe ['a', '/'] = true
    ∧ removeTrailingSlash (removeTrailingSlash ['a', '/']) =
        removeTrailingSlash ['a', '/'] :=
  ⟨by decide, c4_removeTrailingSlash_idem ['a', '/'] (by decide)⟩

mutual
/-- Every name in the tree, recursively, avoids a leading `.`. -/
def noHiddenEntry : FsEntry → Bool
  | .file n => !startsWithDot n
  | .dir n children => !startsWithDot n && noHiddenEntries children

/-- `noHiddenEntry` over a listing. -/
def noHiddenEntries : List FsEntry → Bool
  | [] => true
  | e :: rest => noHiddenEntry e && noHiddenEntries rest
end

mutual
theorem scanEntry_prune {flags : Nat} (hflag : flags &&& SCAN_HIDDEN = 0)
    (dp fe : List Char) (recursive : Bool) (e : FsEntry)
    (hnh : startsWithDot (fsEntryName e) = false) :
    scanEntry dp fe flags recursive e =
      scanEntry dp fe flags recursive (pruneEntry e) := by
  cases e with
  | file n => rfl
  | dir n children =>
    have hs : startsWithDot n = false := hnh
    cases recursive with
    | false => simp [scanEntry, pruneEntry, hs]
    | true =>
      simp only [scanEntry, pruneEntry, hs, Bool.false_and, Bool.false_eq_true,
        if_false, if_true]
      rw [scanEntries_prune hflag (dp ++ n ++ ['/']) fe true children]
termination_by sizeOf e

theorem scanEntries_prune {flags : Nat} (hflag : flags &&& SCAN_HIDDEN = 0)
    (dp fe : List Char) (recursive : Bool) (l : List FsEntry) :
    scanEntries dp fe flags recursive l =
      scanEntries dp fe flags recursive (pruneHidden l) := by
  cases l with
  | nil => rfl
  | cons e rest =>
    show scanEntry dp fe flags recursive e ++
      scanEntries dp fe flags recursive rest = _
    rw [pruneHidden]
    by_cases hd : startsWithDot (fsEntryName e) = true
    · rw [if_pos hd]
      have hz : scanEntry dp fe flags recursive e = [] := by
        cases e with
        | file n => simp [scanEntry, show startsWithDot n = true from hd, hflag]
        | dir n children =>
          simp [scanEntry, show startsWithDot n = true from hd, hflag]
      rw [hz]
      rw [List.nil_append]
      exact scanEntries_prune hflag dp fe recursive rest
    · have hd2 : startsWithDot (fsEntryName e) = false := by
        cases hsd : startsWithDot (fsEntryName e) with
        | true => exact absurd hsd hd
        | false => rfl
      rw [if_neg hd]
      show _ = scanEntry dp fe flags recursive (pruneEntry e) ++
        scanEntries dp fe flags recursive (pruneHidden rest)
      rw [← scanEntry_prune hflag dp fe recursive e hd2,
        ← scanEntries_prune hflag dp fe recursive rest]
termination_by sizeOf l
end

mutual
theorem scanEntry_all {flags : Nat} (hflag : flags &&& SCAN_HIDDEN ≠ 0)
    (dp fe : List Char) (recursive : Bool) (e : FsEntry) :
    scanEntry dp fe flags recursive e = scanEntryAll dp fe flags recursive e := by
  have hb : (flags &&& SCAN_HIDDEN != 0) = true := bne_iff_ne.mpr hflag
  cases e with
  | file n => simp [scanEntry, scanEntryAll, hb]
  | dir n children =>
    cases recursive with
    | false => simp [scanEntry, scanEntryAll, hb]
    | true =>
      simp only [scanEntry, scanEntryAll, hb, Bool.not_true, Bool.and_false,
        Bool.false_eq_true, if_false, if_true]
      rw [scanEntries_all hflag (dp ++ n ++ ['/']) fe true children]
termination_by sizeOf e

theorem scanEntries_all {flags : Nat} (hflag : flags &&& SCAN_HIDDEN ≠ 0)
    (dp fe : List Char) (recursive : Bool) (l : List FsEntry) :
    scanEntries dp fe flags recursive l = scanEntriesAll dp fe flags recursive l := by
  cases l with
  | nil => rfl
  | cons e rest =>
    show scanEntry dp fe flags recursive e ++
      scanEntries dp fe flags recursive rest = _
    rw [scanEntry_all hflag dp fe recursive e,
      scanEntries_all hflag dp fe recursive rest]
    rfl
termination_by sizeOf l
end

mutual
theorem pruneEntry_noHidden (e : FsEntry)
    (h : startsWithDot (fsEntryName e) = false) :
    noHiddenEntry (pruneEntry e) = true := by
  cases e with
  | file n =>
    simp [pruneEntry, noHiddenEntry, show startsWithDot n = false from h]
  | dir n children =>
    have hc := pruneHidden_noHidden children
    simp [pruneEntry, noHiddenEntry, show startsWithDot n = false from h, hc]
termination_by sizeOf e

theorem pruneHidden_noHidden (l : List FsEntry) :
    noHiddenEntries (pruneHidden l) = true := by
  cases l with
  | nil => rfl
  | cons e rest =>
    rw [pruneHidden]
    by_cases hd : startsWithDot (fsEntryName e) = true
    · rw [if_pos hd]
      exact pruneHidden_noHidden rest
    · have hd2 : startsWithDot (fsEntryName e) = false := by
        cases hsd : startsWithDot (fsEntryName e) with
        | true => exact absurd hsd hd
        | false => rfl
      rw [if_neg hd]
      show (noHiddenEntry (pruneEntry e) && noHiddenEntries (pruneHidden rest)) = true
      rw [pruneEntry_noHidden e hd2, pruneHidden_noHidden rest]
      rfl
termination_by sizeOf l
end

mutual
theorem pruneEntry_slashFree (e : FsEntry) (h : slashFreeEntry e = true) :
    slashFreeEntry (pruneEntry e) = true := by
  cases e with
  | file n => exact h
  | dir n children =>
    rw [slashFreeEntry] at h
    rw [Bool.and_eq_true] at h
    have hc := pruneHidden_slashFree children h.2
    show (decide (('/' : Char) ∉ n) && slashFreeEntries (pruneHidden children)) = true
    rw [h.1, hc]
    rfl
termination_by sizeOf e

theorem pruneHidden_slashFree (l : List FsEntry) (h : slashFreeEntries l = true) :
    slashFreeEntries (pruneHidden l) = true := by
  cases l with
  | nil => rfl
  | cons e rest =>
    rw [slashFreeEntries] at h
    rw [Bool.and_eq_true] at h
    rw [pruneHidden]
    by_cases hd : startsWithDot (fsEntryName e) = true
    · rw [if_pos hd]
      exact pruneHidden_slashFree rest h.2
    · rw [if_neg hd]
      show (slashFreeEntry (pruneEntry e) && slashFreeEntries (pruneHidden rest)) = true
      rw [pruneEntry_slashFree e h.1, pruneHidden_slashFree rest h.2]
      rfl
termination_by sizeOf l
end

theorem pair_within_append {x y : Char} : ∀ {a b : List Char},
    [x, y] <:+: a ++ b →
    [x, y] <:+: a ∨ [x, y] <:+: b ∨
      (a.getLast? = some x ∧ b.head? = some y) := by
  intro a
  induction a with
  | nil =>
    intro b h
    exact Or.inr (Or.inl h)
  | cons c a2 ih =>
    intro b h
    rw [List.cons_append] at h
    rcases List.infix_cons_iff.mp h with hp | hi
    · have hx : x = c := ( List.cons_prefix_cons.mp hp).1
      have hy : [y] <+: a2 ++ b := ( List.cons_prefix_cons.mp hp).2
      cases a2 with
      | nil =>
        cases b with
        | nil =>
          rw [List.nil_append] at hy
          exact absurd ( List.prefix_nil.mp hy) (by simp)
        | cons d b2 =>
          have hd : y = d := ( List.cons_prefix_cons.mp hy).1
          refine Or.inr (Or.inr ⟨?_, ?_⟩)
          · rw [hx]
            rfl
          · rw [hd]
            rfl
      | cons d a3 =>
        have hd : y = d := ( List.cons_prefix_cons.mp hy).1
        left
        have hpre : [x, y] <+: c :: d :: a3 := by
          rw [hx, hd]
          exact ⟨a3, rfl⟩
        exact hpre.isInfix
    · rcases ih hi with h1 | h2 | ⟨h3, h4⟩
      · exact Or.inl (List.infix_cons_iff.mpr (Or.inr h1))
      · exact Or.inr (Or.inl h2)
      · refine Or.inr (Or.inr ⟨?_, h4⟩)
        cases a2 with
        | nil => cases h3
        | cons d a3 =>
          rw [List.getLast?_cons_cons]
          exact h3

theorem mem_of_pair_within {x y : Char} {s : List Char}
    (h : [x, y] <:+: s) : x ∈ s :=
  h.sublist.subset (by simp)

theorem startsWithDot_head {n : List Char} (h : startsWithDot n = false) :
    n.head? ≠ some '.' := by
  cases n with
  | nil => simp
  | cons c t =>
    intro hc
    have hcd : c = '.' := by
      simpa using hc
    rw [startsWithDot, hcd] at h
    simp at h

theorem append_name_clean {dp n : List Char}
    (hdph : dp.head? ≠ some '.') (hdpi : ¬ (['/', '.'] <:+: dp))
    (hn : startsWithDot n = false) (hsl : ('/' : Char) ∉ n) :
    (dp ++ n).head? ≠ some '.' ∧ ¬ (['/', '.'] <:+: dp ++ n) := by
  constructor
  · cases dp with
    | nil =>
      rw [List.nil_append]
      exact startsWithDot_head hn
    | cons d t =>
      rw [List.cons_append]
      intro hc
      exact hdph (by simpa using hc)
  · intro hin
    rcases pair_within_append hin with h1 | h2 | ⟨h3, h4⟩
    · exact hdpi h1
    · exact hsl (mem_of_pair_within h2)
    · exact startsWithDot_head hn h4

theorem dir_delta_clean {dp n : List Char}
    (hdph : dp.head? ≠ some '.') (hdpi : ¬ (['/', '.'] <:+: dp))
    (hn : startsWithDot n = false) (hsl : ('/' : Char) ∉ n) :
    (dp ++ n ++ ['/']).head? ≠ some '.'
    ∧ ¬ (['/', '.'] <:+: dp ++ n ++ ['/']) := by
  obtain ⟨hh, hi⟩ := append_name_clean hdph hdpi hn hsl
  constructor
  · cases hdn : dp ++ n with
    | nil => simp
    | cons d t =>
      rw [List.cons_append]
      intro hc
      apply hh
      rw [hdn]
      simpa using hc
  · intro hin
    rcases pair_within_append hin with h1 | h2 | ⟨h3, h4⟩
    · exact hi h1
    · rw [show (['/', '.'] <:+: ['/']) ↔ False by
        constructor
        · intro hx
          have := hx.sublist.length_le
          simp at this
        · intro hx
          cases hx] at h2
      exact h2
    · rw [show (['/'] : List Char).head? = some '/' from rfl] at h4
      cases h4

mutual
theorem scanEntry_clean {fe : List Char} {flags : Nat} {recursive : Bool}
    (dp : List Char) (e : FsEntry)
    (hdph : dp.head? ≠ some '.') (hdpi : ¬ (['/', '.'] <:+: dp))
    (hnh : noHiddenEntry e = true) (hsf : slashFreeEntry e = true) :
    ∀ r ∈ scanEntry dp fe flags recursive e,
      r.head? ≠ some '.' ∧ ¬ (['/', '.'] <:+: r) := by
  cases e with
  | file n =>
    intro r hr
    rw [noHiddenEntry, Bool.not_eq_true'] at hnh
    have hslf : ('/' : Char) ∉ n := of_decide_eq_true hsf
    rw [scanEntry] at hr
    split at hr
    · cases hr
    · split at hr
      · rw [List.mem_singleton] at hr
        subst hr
        exact append_name_clean hdph hdpi hnh hslf
      · cases hr
  | dir n children =>
    intro r hr
    rw [noHiddenEntry, Bool.and_eq_true, Bool.not_eq_true'] at hnh
    obtain ⟨hn, hnc⟩ := hnh
    rw [slashFreeEntry, Bool.and_eq_true] at hsf
    obtain ⟨hsld, hsfc⟩ := hsf
    have hslf : ('/' : Char) ∉ n := of_decide_eq_true hsld
    rw [scanEntry] at hr
    split at hr
    · cases hr
    · rw [List.mem_append] at hr
      cases hr with
      | inl h1 =>
        split at h1
        · rw [List.mem_singleton] at h1
          subst h1
          exact append_name_clean hdph hdpi hn hslf
        · cases h1
      | inr h2 =>
        split at h2
        · obtain ⟨hh, hi⟩ := dir_delta_clean hdph hdpi hn hslf
          exact scanEntries_clean (dp ++ n ++ ['/']) children hh hi hnc hsfc r h2
        · cases h2
termination_by sizeOf e

theorem scanEntries_clean {fe : List Char} {flags : Nat} {recursive : Bool}
    (dp : List Char) (l : List FsEntry)
    (hdph : dp.head? ≠ some '.') (hdpi : ¬ (['/', '.'] <:+: dp))
    (hnh : noHiddenEntries l = true) (hsf : slashFreeEntries l = true) :
    ∀ r ∈ scanEntries dp fe flags recursive l,
      r.head? ≠ some '.' ∧ ¬ (['/', '.'] <:+: r) := by
  cases l with
  | nil =>
    intro r hr
    cases hr
  | cons e rest =>
    intro r hr
    rw [noHiddenEntries, Bool.and_eq_true] at hnh
    rw [slashFreeEntries, Bool.and_eq_true] at hsf
    rw [scanEntries, List.mem_append] at hr
    cases hr with
    | inl h1 => exact scanEntry_clean dp e hdph hdpi hnh.1 hsf.1 r h1
    | inr h2 => exact scanEntries_clean dp rest hdph hdpi hnh.2 hsf.2 r h2
termination_by sizeOf l
end

/-- C6: scanning with `SCAN_HIDDEN` clear is blind to hidden entries — the
result over any tree equals the result over the tree with every dot-named
entry removed recursively (so hidden names are neither emitted nor
descended), and consequently, for trees whose names are single path
components, no emitted result contains a path component that starts with a
dot; with `SCAN_HIDDEN` set the scan coincides with the skip-free loop, so
hidden entries are emitted and descended like any other. -/
theorem c6_scan_hidden :
    (∀ (dp fe : List Char) (flags : Nat) (recursive : Bool)
      (tree : List FsEntry), flags &&& SCAN_HIDDEN = 0 →
      scanEntries dp fe flags recursive tree =
        scanEntries dp fe flags recursive (pruneHidden tree))
    ∧ (∀ (dp fe : List Char) (flags : Nat) (recursive : Bool)
      (tree : List FsEntry), flags &&& SCAN_HIDDEN ≠ 0 →
      scanEntries dp fe flags recursive tree =
        scanEntriesAll dp fe flags recursive tree)
    ∧ (∀ (tree : List FsEntry) (allowedPaths : List (List Char))
        (pathName filter : List Char) (flags : Nat) (recursive : Bool),
      flags &&& SCAN_HIDDEN = 0 → slashFreeEntries tree = true →
      ∀ r ∈ scanDir tree allowedPaths pathName filter flags recursive,
        r.head? ≠ some '.' ∧ ¬ (['/', '.'] <:+: r)) := by
  refine ⟨?_, ?_, ?_⟩
  · intro dp fe flags recursive tree hflag
    exact scanEntries_prune hflag dp fe recursive tree
  · intro dp fe flags recursive tree hflag
    exact scanEntries_all hflag dp fe recursive tree
  · intro tree allowedPaths pathName filter flags recursive hflag hsf r hr
    rw [scanDir] at hr
    split at hr
    · rw [scanEntries_prune hflag [] (scanFilterExt filter) recursive tree] at hr
      exact scanEntries_clean [] (pruneHidden tree) (by simp) (by decide)
        (pruneHidden_noHidden tree) (pruneHidden_slashFree tree hsf) r hr
    · cases hr

/-- C6 witness: with `flags = SCAN_FILES` the hidden file `.h` is pruned from
the scan; with `flags = SCAN_FILES + SCAN_HIDDEN` the scan equals the
skip-free loop; and over a slash-free tree every result of `scanDir` avoids
dot-led components. -/
theorem c6_witness :
    ((1 : Nat) &&& SCAN_HIDDEN = 0)
    ∧ scanEntries [] [] 1 true [FsEntry.file ['.', 'h'], FsEntry.file ['a']] =
        scanEntries [] [] 1 true
          (pruneHidden [FsEntry.file ['.', 'h'], FsEntry.file ['a']])
    ∧ ((5 : Nat) &&& SCAN_HIDDEN ≠ 0)
    ∧ scanEntries [] [] 5 true [FsEntry.file ['.', 'h']] =
        scanEntriesAll [] [] 5 true [FsEntry.file ['.', 'h']]
    ∧ slashFreeEntries [FsEntry.dir ['s'] [FsEntry.file ['a']]] = true
    ∧ ∀ r ∈ scanDir [FsEntry.dir ['s'] [FsEntry.file ['a']]] [] [] [] 1 true,
        r.head? ≠ some '.' ∧ ¬ (['/', '.'] <:+: r) := by
  refine ⟨by decide, ?_, by decide, ?_, by decide, ?_⟩
  · exact c6_scan_hidden.1 [] [] 1 true _ (by decide)
  · exact c6_scan_hidden.2.1 [] [] 5 true _ (by decide)
  · exact c6_scan_hidden.2.2 _ [] [] [] 1 true (by decide) (by decide)
